import Mathlib

/-!
# Verification of the sensleak-rs data model and scan pipeline

This file embeds the data model of `src/models.rs` (the structs `Rule`,
`Allowlist`, `Leak`, `Scan`, `CommitInfo`, `Results` and their `new`/`default`
constructors) into Lean, together with a model of the scan pipeline described
in the specification (keyword gating, regex matching, two-tier allowlist
suppression, result collection), and proves the specification's testable
properties about them.

Machine strings are `String`, machine integers are `Nat` (the counters involved
never overflow a `u32`/`usize` on the inputs considered), regexes are
`RegularExpression Char` from Mathlib with an executable compiler from the
textual pattern syntax.
-/

namespace Sensleak

/-- From `src/models.rs` (`pub struct Allowlist`): the suppression lists.
`paths` are regex strings matched against the file path, `commits` are exact
commit identifiers, `regex_target` selects what `regexes`/`stopwords` are
evaluated against ("match" or "line"), `stopwords` suppress on case-insensitive
containment. -/
structure Allowlist where
  paths : List String
  commits : List String
  regex_target : String
  regexes : List String
  stopwords : List String
deriving DecidableEq

/-- From `src/models.rs` (`impl Allowlist { pub fn new() }`). -/
def Allowlist.new : Allowlist :=
  { paths := []
    commits := []
    regex_target := "match"
    regexes := []
    stopwords := [] }

/-- From `src/models.rs` (`impl Default for Allowlist`): `default` delegates to
`new`. -/
def Allowlist.default : Allowlist := Allowlist.new

/-- From `src/models.rs` (`pub struct Rule`): a detection rule. The `regex`
field is the textual pattern exactly as in the source (compilation happens in
the scan engine); `keywords` gate the rule before any regex evaluation. -/
structure Rule where
  description : String
  id : String
  regex : String
  keywords : List String
  allowlist : Option Allowlist
deriving DecidableEq

/-- From `src/models.rs` (`impl Rule { pub fn new() }`). -/
def Rule.new : Rule :=
  { description := "11"
    id := "11"
    regex := "(?i)(?:key|api|token|secret|client|passwd|password|auth|access)"
    keywords := []
    allowlist := none }

/-- From `src/models.rs` (`impl Default for Rule`). -/
def Rule.default : Rule := Rule.new

/-- From `src/models.rs` (`pub struct Leak`): one reported occurrence of
detected sensitive content. `line_number` is a `u32` in the source, modelled as
`Nat`. -/
structure Leak where
  line : String
  line_number : Nat
  offender : String
  commit : String
  repo : String
  rule : String
  commit_message : String
  author : String
  email : String
  file : String
  date : String
  tags : String
  operation : String
deriving DecidableEq

/-- From `src/models.rs` (`pub struct Scan`): the scan condition — the global
allowlist, the rules list, and the aggregate keyword list. -/
structure Scan where
  allowlist : Allowlist
  ruleslist : List Rule
  keywords : List String
deriving DecidableEq

/-- From `src/models.rs` (`impl Scan { pub fn new() }`). -/
def Scan.new : Scan :=
  { allowlist := Allowlist.new
    ruleslist := []
    keywords := [] }

/-- From `src/models.rs` (`impl Default for Scan`). -/
def Scan.default : Scan := Scan.new

/-- Model of `git2::Oid` (the type of `CommitInfo.commit` in `src/models.rs`):
a raw 20-byte object identifier. Equality and ordering are defined on the raw
bytes below. -/
abbrev Oid := { l : List Nat // l.length = 20 ∧ ∀ b ∈ l, b < 256 }

/-- Strict ordering on commit identifiers: lexicographic on the raw bytes,
mirroring `git2::Oid`'s byte-wise `Ord`. -/
def Oid.lt (a b : Oid) : Prop := List.Lex (fun x y : Nat => x < y) a.val b.val

/-- Hexadecimal digit for a nibble value. -/
def hexDigit (n : Nat) : Char :=
  if n < 10 then Char.ofNat (48 + n) else Char.ofNat (87 + n)

/-- Two-character lowercase hexadecimal rendering of one byte. -/
def byteHex (b : Nat) : String := String.mk [hexDigit (b / 16), hexDigit (b % 16)]

/-- Canonical 40-character hexadecimal string form of a commit identifier,
mirroring `git2::Oid`'s `Display`. -/
def Oid.toHex (o : Oid) : String :=
  String.mk (o.val.flatMap fun b => [hexDigit (b / 16), hexDigit (b % 16)])

/-- From `src/models.rs` (`pub struct CommitInfo`): normalized per-commit
metadata plus diff content. `commit` is a `git2::Oid` in the source, modelled
by `Oid`; `date` is a rendered `DateTime<FixedOffset>`, modelled by its string
form (no claim inspects its structure); `files` is the ordered list of
(path, content) pairs. -/
structure CommitInfo where
  repo : String
  commit : Oid
  author : String
  email : String
  commit_message : String
  date : String
  files : List (String × String)
  tags : List String
  operation : String
deriving DecidableEq

/-- From `src/models.rs` (`pub struct Results`): visited-commit count and the
append-only leak list. `commits_number` is a `usize`, modelled as `Nat`. -/
structure Results where
  commits_number : Nat
  outputs : List Leak
deriving DecidableEq

/-- From `src/models.rs` (`impl Results { pub fn new() }`). -/
def Results.new : Results :=
  { commits_number := 0
    outputs := [] }

/-- From `src/models.rs` (`impl Default for Results`). -/
def Results.default : Results := Results.new

/-! ## Regex engine

Modelled from the spec: the scan engine compiles each rule's `regex` string
(§4.1, "fails with a ConfigError on ... a regex that fails to compile") and
evaluates it against lines (§4.3). The compiled form is Mathlib's
`RegularExpression Char`; the compiler below parses the core syntax
(literal characters, escapes, alternation, grouping, Kleene star) and rejects
everything else, which models "fails to compile". -/

abbrev Rgx := RegularExpression Char

/-- Apply trailing Kleene stars to an already-parsed atom. -/
def applyStars : Rgx → List Char → Rgx × List Char
  | r, '*' :: rest => applyStars r.star rest
  | r, rest => (r, rest)

mutual

/-- Parse an alternation (lowest precedence). Fuel-indexed recursive-descent
parser; `none` models a pattern the engine rejects. -/
def parseAlt : Nat → List Char → Option (Rgx × List Char)
  | 0, _ => none
  | fuel + 1, s =>
    match parseCat fuel s with
    | none => none
    | some (r, rest) =>
      match rest with
      | '|' :: rest2 =>
        match parseAlt fuel rest2 with
        | none => none
        | some (r2, rest3) => some (r + r2, rest3)
      | _ => some (r, rest)

/-- Parse a concatenation of starred atoms. -/
def parseCat : Nat → List Char → Option (Rgx × List Char)
  | 0, _ => none
  | fuel + 1, s =>
    match s with
    | [] => some (1, [])
    | ')' :: _ => some (1, s)
    | '|' :: _ => some (1, s)
    | _ =>
      match parseAtom fuel s with
      | none => none
      | some (r, rest) =>
        match applyStars r rest with
        | (r2, rest2) =>
          match parseCat fuel rest2 with
          | none => none
          | some (r3, rest3) => some (r2 * r3, rest3)

/-- Parse one atom: a parenthesized group, an escaped character, or a literal
character. Metacharacters in the wrong position make compilation fail. -/
def parseAtom : Nat → List Char → Option (Rgx × List Char)
  | 0, _ => none
  | fuel + 1, s =>
    match s with
    | [] => none
    | '(' :: rest =>
      match parseAlt fuel rest with
      | none => none
      | some (r, rest2) =>
        match rest2 with
        | ')' :: rest3 => some (r, rest3)
        | _ => none
    | '\\' :: c :: rest => some (RegularExpression.char c, rest)
    | '\\' :: [] => none
    | '*' :: _ => none
    | ')' :: _ => none
    | '|' :: _ => none
    | c :: rest => some (RegularExpression.char c, rest)

end

/-- Modelled from the spec: compile a rule's textual `regex` into the engine's
form; `none` is "fails to compile" (§4.1, §7 ConfigError). -/
def compileRegex (s : String) : Option Rgx :=
  match parseAlt (2 * s.length + 2) s.data with
  | some (r, []) => some r
  | _ => none

/-- Try candidate match lengths in order; return the first slice of `suffix`
accepted by the regex. -/
def tryLens (re : Rgx) (suffix : List Char) : List Nat → Option (List Char)
  | [] => none
  | L :: rest =>
    if re.rmatch (suffix.take L) then some (suffix.take L) else tryLens re suffix rest

/-- Longest match of `re` starting at position `pos` of `line`, if any. -/
def matchAt (re : Rgx) (line : List Char) (pos : Nat) : Option (List Char) :=
  tryLens re (line.drop pos) (List.range (line.length - pos + 1)).reverse

/-- Scan left to right from `pos`, collecting non-overlapping leftmost-longest
matches; an empty match advances by one character. Fuel bounds the walk. -/
def findMatchesFrom (re : Rgx) (line : List Char) : Nat → Nat → List (Nat × List Char)
  | 0, _ => []
  | fuel + 1, pos =>
    if pos ≤ line.length then
      match matchAt re line pos with
      | some off => (pos, off) :: findMatchesFrom re line fuel (pos + Nat.max off.length 1)
      | none => findMatchesFrom re line fuel (pos + 1)
    else []

/-- Modelled from the spec (§4.3 Matcher): all matches of a compiled regex
within a line, with their starting positions. -/
def findMatches (re : Rgx) (line : List Char) : List (Nat × List Char) :=
  findMatchesFrom re line (line.length + 1) 0

/-! ## Allowlist suppression predicates

Modelled from the spec (§4.4 AllowlistFilter): path suppression matches the
`paths` regexes against the file path, commit suppression compares exact
commit identifiers, and regex/stopword suppression evaluates against the
offender text or the full line according to `regex_target`. -/

/-- Does the compiled form of pattern `pat` match anywhere inside `text`?
A pattern that fails to compile matches nothing. -/
def regexHits (pat : String) (text : String) : Bool :=
  match compileRegex pat with
  | some re => !(findMatches re text.data).isEmpty
  | none => false

/-- Lowercase every character of a string. -/
def toLowerStr (s : String) : String := String.mk (s.data.map Char.toLower)

/-- Does `small` start `big`? -/
def startsList (small big : List Char) : Bool :=
  match small, big with
  | [], _ => true
  | _ :: _, [] => false
  | a :: as, b :: bs => a == b && startsList as bs

/-- Does `small` occur contiguously inside `big`? -/
def insideList (small big : List Char) : Bool :=
  match big with
  | [] => startsList small []
  | _ :: bs => startsList small big || insideList small bs

/-- Case-insensitive containment of a stopword in a text (§4.4 stopwords). -/
def containsCI (text sw : String) : Bool :=
  insideList (toLowerStr sw).data (toLowerStr text).data

/-- Global tier, file dimension: any `paths` regex matching the file path
suppresses the entire file (§4.4 tier 1). -/
def pathSuppressed (al : Allowlist) (path : String) : Bool :=
  al.paths.any fun p => regexHits p path

/-- Global tier, commit dimension: an exact `commits` entry equal to the commit
identifier suppresses the entire commit (§4.4 tier 1). -/
def commitSuppressed (al : Allowlist) (commitId : String) : Bool :=
  al.commits.contains commitId

/-- Regex/stopword suppression of a single text (§4.4 tier 2). -/
def textSuppressed (al : Allowlist) (text : String) : Bool :=
  (al.regexes.any fun p => regexHits p text) || (al.stopwords.any fun sw => containsCI text sw)

/-- Per-rule tier: the suppression target is the full line when `regex_target`
is "line", and the offender text otherwise (the documented value "match" and
the untreated remainder, §4.4 tier 2). -/
def candidateSuppressed (al : Allowlist) (offender line : String) : Bool :=
  if al.regex_target = "line" then textSuppressed al line else textSuppressed al offender

/-- Suppression of one MatchCandidate by a rule's optional allowlist; a rule
without an allowlist suppresses nothing. -/
def ruleSuppressed (r : Rule) (offender line : String) : Bool :=
  match r.allowlist with
  | some al => candidateSuppressed al offender line
  | none => false

/-! ## Keyword gating and the matcher -/

/-- Modelled from the spec (§4.1 KeywordIndex): a rule is a candidate for a
(lowercased) line when its keyword list is empty or some lowercased keyword
occurs as a substring of the line. -/
def ruleIsCandidate (r : Rule) (lineLower : List Char) : Bool :=
  r.keywords.isEmpty || r.keywords.any fun kw => insideList (toLowerStr kw).data lineLower

/-- The rules whose regexes are evaluated on a line: the keyword-gated
candidates when gating is on, every rule when it is off (§8,
keyword-gating equivalence). -/
def rulesFor (gate : Bool) (rules : List Rule) (line : String) : List Rule :=
  if gate then rules.filter (fun r => ruleIsCandidate r (toLowerStr line).data) else rules

/-- Modelled from the spec (§4.3 Matcher): the offender texts produced by one
rule on one line — one per regex match. A regex that fails to compile yields
nothing. -/
def ruleMatchesOn (r : Rule) (line : String) : List String :=
  match compileRegex r.regex with
  | some re => (findMatches re line.data).map fun pr => String.mk pr.2
  | none => []

/-! ## The scan pipeline

Modelled from the spec (§2 ScanSession, §4.5 ResultCollector): for each commit,
for each changed file, for each line, candidate rules are keyword-gated, their
regexes evaluated, survivors of per-rule allowlist suppression appended as
Leaks in traversal → file → line → rule order; `commits_number` increments once
per visited commit. -/

/-- Split a character list at every occurrence of the separator; mirrors
`String.splitOn` for a one-character separator. -/
def splitChars (sep : Char) : List Char → List (List Char)
  | [] => [[]]
  | c :: rest =>
    if c == sep then [] :: splitChars sep rest
    else
      match splitChars sep rest with
      | [] => [[c]]
      | h :: t => (c :: h) :: t

/-- Split file content into lines. -/
def linesOf (content : String) : List String :=
  (splitChars (Char.ofNat 10) content.data).map String.mk

/-- Interleave a separator between character lists; mirrors
`String.intercalate`. -/
def intercalateChars (sep : List Char) : List (List Char) → List Char
  | [] => []
  | [x] => x
  | x :: y :: rest => x ++ sep ++ intercalateChars sep (y :: rest)

/-- Render a `CommitInfo`'s tag list into the Leak's single `tags` string. -/
def joinTags (tags : List String) : String :=
  String.mk (intercalateChars [',', ' '] (tags.map String.data))

/-- Build a Leak by merging a surviving MatchCandidate with the enclosing
`CommitInfo`'s metadata (§4.5). -/
def mkLeak (c : CommitInfo) (path line : String) (lineNo : Nat) (ruleId offender : String) :
    Leak :=
  { line := line
    line_number := lineNo
    offender := offender
    commit := c.commit.toHex
    repo := c.repo
    rule := ruleId
    commit_message := c.commit_message
    author := c.author
    email := c.email
    file := path
    date := c.date
    tags := joinTags c.tags
    operation := c.operation }

/-- Leaks of one line: gate the rules, evaluate each candidate's regex, drop
candidates suppressed by the rule's allowlist (§4.3, §4.4 tier 2). -/
def lineLeaks (gate : Bool) (s : Scan) (c : CommitInfo) (path : String) (lineNo : Nat)
    (line : String) : List Leak :=
  (rulesFor gate s.ruleslist line).flatMap fun r =>
    (ruleMatchesOn r line).filterMap fun off =>
      if ruleSuppressed r off line then none else some (mkLeak c path line lineNo r.id off)

/-- Leaks of one file's lines, numbering lines from `lineNo` (1-based at the
top call). -/
def fileLeaks (gate : Bool) (s : Scan) (c : CommitInfo) (path : String) :
    Nat → List String → List Leak
  | _, [] => []
  | lineNo, line :: rest =>
    lineLeaks gate s c path lineNo line ++ fileLeaks gate s c path (lineNo + 1) rest

/-- Leaks of one commit: the global allowlist's `commits` entry suppresses the
whole commit, a `paths` match suppresses the whole file (§4.4 tier 1). -/
def commitLeaks (gate : Bool) (s : Scan) (c : CommitInfo) : List Leak :=
  if commitSuppressed s.allowlist c.commit.toHex then []
  else
    c.files.flatMap fun pf =>
      if pathSuppressed s.allowlist pf.1 then []
      else fileLeaks gate s c pf.1 1 (linesOf pf.2)

/-- Process one visited commit: increment `commits_number` unconditionally and
append the commit's surviving leaks (§4.5). -/
def processCommit (gate : Bool) (s : Scan) (r : Results) (c : CommitInfo) : Results :=
  { commits_number := r.commits_number + 1
    outputs := r.outputs ++ commitLeaks gate s c }

/-- Run the scan over a resolved commit sequence, with or without keyword
gating. -/
def runScanWith (gate : Bool) (s : Scan) (commits : List CommitInfo) : Results :=
  commits.foldl (processCommit gate s) Results.new

/-- The scan as shipped: keyword gating enabled. -/
def runScan (s : Scan) (commits : List CommitInfo) : Results := runScanWith true s commits

/-! ## RuleSet construction

Modelled from the spec (§4.1, §7): construction takes the rule definitions and
the global allowlist and fails with a ConfigError on a duplicate rule id or a
regex that fails to compile, before any commit is scanned. -/

/-- The two fatal configuration errors (§7). -/
inductive ConfigError where
  | duplicateId (id : String)
  | invalidRegex (pattern : String)
deriving DecidableEq

/-- First element of the list that reappears later in it, if any. -/
def firstDup : List String → Option String
  | [] => none
  | x :: xs => if xs.contains x then some x else firstDup xs

/-- Modelled from the spec (§4.1): validate and assemble the scan condition.
The aggregate `keywords` field collects every rule's keywords. -/
def buildScan (rules : List Rule) (al : Allowlist) : Except ConfigError Scan :=
  match firstDup (rules.map Rule.id) with
  | some i => Except.error (ConfigError.duplicateId i)
  | none =>
    match rules.find? (fun r => (compileRegex r.regex).isNone) with
    | some r => Except.error (ConfigError.invalidRegex r.regex)
    | none =>
      Except.ok
        { allowlist := al
          ruleslist := rules
          keywords := rules.flatMap Rule.keywords }

/-- Configuration validation followed by the scan: a ConfigError aborts before
any commit is visited and no Results value exists (§7). -/
def scanRepo (rules : List Rule) (al : Allowlist) (commits : List CommitInfo) :
    Except ConfigError Results :=
  match buildScan rules al with
  | Except.error e => Except.error e
  | Except.ok s => Except.ok (runScan s commits)

/-- Every allowlist a scan condition consults: the global one and each rule's
optional one. -/
def allowlistsUsed (s : Scan) : List Allowlist :=
  s.allowlist :: s.ruleslist.filterMap Rule.allowlist

/-- All four suppression lists empty (the spec's "Allowlist with every list
empty"), as an executable check. -/
def allEmptyB (al : Allowlist) : Bool :=
  al.paths.isEmpty && al.commits.isEmpty && al.regexes.isEmpty && al.stopwords.isEmpty

/-- `allEmptyB` lifted to a rule's optional allowlist. -/
def allEmptyOptB : Option Allowlist → Bool
  | none => true
  | some al => allEmptyB al

/-- Replace every allowlist of a scan condition by the absent one: the fresh
global allowlist and no per-rule allowlists. -/
def stripAllow (s : Scan) : Scan :=
  { allowlist := Allowlist.new
    ruleslist := s.ruleslist.map fun r => { r with allowlist := none }
    keywords := s.keywords }

/-! ## Index-instrumented pipeline

The same pipeline, additionally recording for every produced Leak its
(commit index, file index, line number, rule index) position; used to state
and prove the deterministic output ordering (§3 Results, §8 idempotence). -/

/-- Ordering key of a Leak: traversal position, file position, line number,
rule position. -/
abbrev LeakKey := Nat × Nat × Nat × Nat

/-- Lexicographic order on Leak keys: traversal order, then file order, then
line order, then rule order. -/
def keyLe (a b : LeakKey) : Prop :=
  a.1 < b.1 ∨ (a.1 = b.1 ∧ (a.2.1 < b.2.1 ∨ (a.2.1 = b.2.1 ∧
    (a.2.2.1 < b.2.2.1 ∨ (a.2.2.1 = b.2.2.1 ∧ a.2.2.2 ≤ b.2.2.2)))))

/-- Keyed leaks of one line, walking the candidate rules from rule index
`rIdx`. -/
def rulesK (s : Scan) (c : CommitInfo) (path line : String)
    (cIdx fIdx lineNo : Nat) : Nat → List Rule → List (LeakKey × Leak)
  | _, [] => []
  | rIdx, r :: rest =>
    ((ruleMatchesOn r line).filterMap fun off =>
      if ruleSuppressed r off line then none
      else some ((cIdx, fIdx, lineNo, rIdx), mkLeak c path line lineNo r.id off)) ++
    rulesK s c path line cIdx fIdx lineNo (rIdx + 1) rest

/-- Keyed leaks of a file's lines from line number `lineNo`. -/
def linesK (s : Scan) (c : CommitInfo) (path : String) (cIdx fIdx : Nat) :
    Nat → List String → List (LeakKey × Leak)
  | _, [] => []
  | lineNo, line :: rest =>
    rulesK s c path line cIdx fIdx lineNo 0 (rulesFor true s.ruleslist line) ++
    linesK s c path cIdx fIdx (lineNo + 1) rest

/-- Keyed leaks of a commit's files from file index `fIdx`. -/
def filesK (s : Scan) (c : CommitInfo) (cIdx : Nat) :
    Nat → List (String × String) → List (LeakKey × Leak)
  | _, [] => []
  | fIdx, pf :: rest =>
    (if pathSuppressed s.allowlist pf.1 then []
     else linesK s c pf.1 cIdx fIdx 1 (linesOf pf.2)) ++
    filesK s c cIdx (fIdx + 1) rest

/-- Keyed leaks of one commit. -/
def commitLeaksK (s : Scan) (cIdx : Nat) (c : CommitInfo) : List (LeakKey × Leak) :=
  if commitSuppressed s.allowlist c.commit.toHex then [] else filesK s c cIdx 0 c.files

/-- Keyed leaks of the commit sequence from traversal index `cIdx`. -/
def commitsK (s : Scan) : Nat → List CommitInfo → List (LeakKey × Leak)
  | _, [] => []
  | cIdx, c :: rest => commitLeaksK s cIdx c ++ commitsK s (cIdx + 1) rest

/-- The keyed scan: every Leak of `runScan` tagged with its position key. -/
def runScanK (s : Scan) (commits : List CommitInfo) : List (LeakKey × Leak) :=
  commitsK s 0 commits

/-! ## Allowlist growth relations (for the monotonicity property) -/

/-- `addOne a b`: `b` is `a` with exactly one entry added to one of the four
suppression lists (and the same `regex_target`). -/
def addOne (a b : Allowlist) : Prop :=
  b.regex_target = a.regex_target ∧
  ((∃ x, b.paths = a.paths ++ [x] ∧ b.commits = a.commits ∧ b.regexes = a.regexes ∧
      b.stopwords = a.stopwords) ∨
   (∃ x, b.commits = a.commits ++ [x] ∧ b.paths = a.paths ∧ b.regexes = a.regexes ∧
      b.stopwords = a.stopwords) ∨
   (∃ x, b.regexes = a.regexes ++ [x] ∧ b.paths = a.paths ∧ b.commits = a.commits ∧
      b.stopwords = a.stopwords) ∨
   (∃ x, b.stopwords = a.stopwords ++ [x] ∧ b.paths = a.paths ∧ b.commits = a.commits ∧
      b.regexes = a.regexes))

/-- `scanAddOne s s2`: the scan condition `s2` is `s` with one entry added to
one list of one of its allowlists — either the global one, or the allowlist of
exactly one rule. -/
def scanAddOne (s s2 : Scan) : Prop :=
  (s2.ruleslist = s.ruleslist ∧ addOne s.allowlist s2.allowlist) ∨
  (s2.allowlist = s.allowlist ∧
    ∃ pre r al al2 post, r.allowlist = some al ∧ addOne al al2 ∧
      s.ruleslist = pre ++ r :: post ∧
      s2.ruleslist = pre ++ { r with allowlist := some al2 } :: post)

/-! ## Concrete configurations used by the witnesses -/

/-- A concrete 20-byte commit identifier. -/
def exOid : Oid := ⟨List.replicate 19 0 ++ [222], by decide, by decide⟩

/-- A second, distinct 20-byte commit identifier. -/
def exOid2 : Oid := ⟨List.replicate 20 0, by decide, by decide⟩

/-- A concrete rule whose keyword is implied by its regex. -/
def exRule : Rule :=
  { description := "generic api key"
    id := "r1"
    regex := "api"
    keywords := ["api"]
    allowlist := none }

/-- A concrete commit whose second line of `config.py` matches `exRule`. -/
def exCommit : CommitInfo :=
  { repo := "repo"
    commit := exOid
    author := "alice"
    email := "a@x"
    commit_message := "msg"
    date := "2023-01-02"
    files := [("config.py", "x = 1\napi = q\nz")]
    tags := []
    operation := "addition" }

/-- The scan condition holding just `exRule` and no suppression. -/
def exScan : Scan :=
  { allowlist := Allowlist.new
    ruleslist := [exRule]
    keywords := ["api"] }

/-- The single Leak that scanning `exCommit` under `exScan` produces. -/
def exLeak : Leak :=
  { line := "api = q"
    line_number := 2
    offender := "api"
    commit := exOid.toHex
    repo := "repo"
    rule := "r1"
    commit_message := "msg"
    author := "alice"
    email := "a@x"
    file := "config.py"
    date := "2023-01-02"
    tags := ""
    operation := "addition" }

/-- A commit none of whose lines matches `exRule`. -/
def quietCommit : CommitInfo :=
  { repo := "repo"
    commit := exOid
    author := "alice"
    email := "a@x"
    commit_message := "msg"
    date := "2023-01-02"
    files := [("f.txt", "zz")]
    tags := []
    operation := "addition" }

/-- `exRule` carrying an empty per-rule allowlist. -/
def exRuleAl : Rule := { exRule with allowlist := some Allowlist.new }

/-- `exRule` carrying the same allowlist grown by one stopword. -/
def exRuleAl2 : Rule :=
  { exRule with allowlist := some { Allowlist.new with stopwords := ["api"] } }

/-- Scan condition with the empty per-rule allowlist. -/
def exScanAl : Scan :=
  { allowlist := Allowlist.new
    ruleslist := [exRuleAl]
    keywords := ["api"] }

/-- Scan condition with the grown per-rule allowlist. -/
def exScanAl2 : Scan :=
  { allowlist := Allowlist.new
    ruleslist := [exRuleAl2]
    keywords := ["api"] }

/-- A rule whose keyword never occurs although its regex matches: keyword
gating drops its leaks. -/
def gateRule : Rule :=
  { description := "unsound keywords"
    id := "g1"
    regex := "a"
    keywords := ["zzz"]
    allowlist := none }

/-- A commit matching `gateRule`'s regex but not its keyword. -/
def gateCommit : CommitInfo :=
  { repo := "repo"
    commit := exOid
    author := "alice"
    email := "a@x"
    commit_message := "msg"
    date := "2023-01-02"
    files := [("f.py", "a")]
    tags := []
    operation := "addition" }

/-- Scan condition holding just `gateRule`. -/
def gateScan : Scan :=
  { allowlist := Allowlist.new
    ruleslist := [gateRule]
    keywords := [] }

/-- `exRule` carrying an allowlist whose `regex_target` is neither "match" nor
"line". -/
def targetRule : Rule :=
  { exRule with
    allowlist := some
      { paths := []
        commits := []
        regex_target := "offender"
        regexes := []
        stopwords := [] } }

/-- Scan condition whose per-rule allowlist has an out-of-range
`regex_target`; the scan still runs and produces leaks. -/
def targetScan : Scan :=
  { allowlist := Allowlist.new
    ruleslist := [targetRule]
    keywords := ["api"] }

/-! ## Generic list lemmas -/

theorem flatMap_sublist {α β : Type} {f g : α → List β} (l : List α)
    (h : ∀ a ∈ l, List.Sublist (f a) (g a)) :
    List.Sublist (l.flatMap f) (l.flatMap g) := by
  induction l with
  | nil => simp
  | cons x xs ih =>
    simp only [List.flatMap_cons]
    exact List.Sublist.append (h x (by simp)) (ih fun a ha => h a (by simp [ha]))

theorem filterMap_sublist_mono {α β : Type} {f g : α → Option β} (l : List α)
    (h : ∀ a ∈ l, ∀ b, f a = some b → g a = some b) :
    List.Sublist (l.filterMap f) (l.filterMap g) := by
  induction l with
  | nil => simp
  | cons x xs ih =>
    have ih2 := ih fun a ha b hb => h a (by simp [ha]) b hb
    simp only [List.filterMap_cons]
    cases hf : f x with
    | none =>
      cases hg : g x with
      | none => exact ih2
      | some b => exact ih2.trans (List.sublist_cons_self b _)
    | some b =>
      rw [h x (by simp) b hf]
      exact ih2.cons₂ b

theorem flatMap_filter_of_nil {α β : Type} {p : α → Bool} {f : α → List β} (l : List α)
    (h : ∀ a ∈ l, p a = false → f a = []) :
    (l.filter p).flatMap f = l.flatMap f := by
  induction l with
  | nil => simp
  | cons x xs ih =>
    have ih2 := ih fun a ha hp => h a (by simp [ha]) hp
    by_cases hp : p x = true
    · simp [List.filter_cons, hp, ih2]
    · have hx : f x = [] := h x (by simp) (by simpa using hp)
      simp [List.filter_cons, hp, ih2, hx]

/-! ## The fold characterization of the scan -/

theorem foldl_processCommit (gate : Bool) (s : Scan) (cs : List CommitInfo) :
    ∀ r : Results,
      cs.foldl (processCommit gate s) r =
        { commits_number := r.commits_number + cs.length
          outputs := r.outputs ++ cs.flatMap (commitLeaks gate s) } := by
  induction cs with
  | nil => intro r; simp
  | cons c rest ih =>
    intro r
    rw [List.foldl_cons, ih]
    simp [processCommit, Nat.add_comm, Nat.add_assoc, Nat.add_left_comm]

theorem runScanWith_eq (gate : Bool) (s : Scan) (cs : List CommitInfo) :
    runScanWith gate s cs =
      { commits_number := cs.length
        outputs := cs.flatMap (commitLeaks gate s) } := by
  rw [runScanWith, foldl_processCommit]
  simp [Results.new]

theorem flatMap_congr_mem {α β : Type} {f g : α → List β} (l : List α)
    (h : ∀ a ∈ l, f a = g a) : l.flatMap f = l.flatMap g := by
  induction l with
  | nil => rfl
  | cons x xs ih =>
    simp only [List.flatMap_cons]
    rw [h x (by simp), ih fun a ha => h a (by simp [ha])]

theorem filterMap_congr_mem {α β : Type} {f g : α → Option β} (l : List α)
    (h : ∀ a ∈ l, f a = g a) : l.filterMap f = l.filterMap g := by
  induction l with
  | nil => rfl
  | cons x xs ih =>
    simp only [List.filterMap_cons]
    rw [h x (by simp), ih fun a ha => h a (by simp [ha])]

/-! ## C2: an Allowlist with every list empty never suppresses -/

theorem allEmptyB_fields (al : Allowlist) (h : allEmptyB al = true) :
    al.paths = [] ∧ al.commits = [] ∧ al.regexes = [] ∧ al.stopwords = [] := by
  unfold allEmptyB at h
  simp only [Bool.and_eq_true, List.isEmpty_iff] at h
  exact ⟨h.1.1.1, h.1.1.2, h.1.2, h.2⟩

theorem textSuppressed_of_empty (al : Allowlist) (h1 : al.regexes = [])
    (h2 : al.stopwords = []) (t : String) : textSuppressed al t = false := by
  simp [textSuppressed, h1, h2]

theorem candidateSuppressed_of_empty (al : Allowlist) (h1 : al.regexes = [])
    (h2 : al.stopwords = []) (off line : String) :
    candidateSuppressed al off line = false := by
  unfold candidateSuppressed
  by_cases ht : al.regex_target = "line" <;>
    simp [ht, textSuppressed_of_empty al h1 h2]

theorem ruleSuppressed_of_empty (r : Rule) (h : allEmptyOptB r.allowlist = true)
    (off line : String) : ruleSuppressed r off line = false := by
  unfold ruleSuppressed
  cases hal : r.allowlist with
  | none => rfl
  | some al =>
    rw [hal] at h
    obtain ⟨_, _, hrx, hsw⟩ := allEmptyB_fields al h
    exact candidateSuppressed_of_empty al hrx hsw off line

/-- The per-line leak computation is unchanged when every (empty) per-rule
allowlist is removed. -/
theorem stripRules_leaks (c : CommitInfo) (path line : String) (n : Nat) (rules : List Rule)
    (h2 : ∀ r ∈ rules, allEmptyOptB r.allowlist = true) :
    (rulesFor true (rules.map fun r => { r with allowlist := none }) line).flatMap
      (fun r => (ruleMatchesOn r line).filterMap fun off =>
        if ruleSuppressed r off line then none else some (mkLeak c path line n r.id off)) =
    (rulesFor true rules line).flatMap
      (fun r => (ruleMatchesOn r line).filterMap fun off =>
        if ruleSuppressed r off line then none else some (mkLeak c path line n r.id off)) := by
  induction rules with
  | nil => rfl
  | cons r rest ih =>
    have h2r := h2 r (by simp)
    have ih2 := ih fun a ha => h2 a (by simp [ha])
    have hcand : ruleIsCandidate { r with allowlist := none } (toLowerStr line).data =
        ruleIsCandidate r (toLowerStr line).data := rfl
    have hrf : ∀ rs : List Rule,
        rulesFor true rs line = rs.filter (fun a => ruleIsCandidate a (toLowerStr line).data) :=
      fun rs => rfl
    rw [hrf] at ih2
    rw [hrf] at ih2
    rw [hrf, hrf, List.map_cons, List.filter_cons, List.filter_cons]
    by_cases hc : ruleIsCandidate r (toLowerStr line).data = true
    · simp only [hcand, hc, eq_self_iff_true, if_true, List.flatMap_cons]
      rw [ih2]
      congr 1
      apply filterMap_congr_mem
      intro off _
      have hs1 : ruleSuppressed { r with allowlist := none } off line = false := rfl
      have hs2 : ruleSuppressed r off line = false := ruleSuppressed_of_empty r h2r off line
      simp [hs1, hs2]
    · have hcf : ruleIsCandidate r (toLowerStr line).data = false := by simpa using hc
      simp only [hcand, hcf, Bool.false_eq_true, if_false]
      exact ih2

theorem fileLeaks_strip (s : Scan) (c : CommitInfo) (path : String)
    (h2 : ∀ r ∈ s.ruleslist, allEmptyOptB r.allowlist = true) :
    ∀ (n : Nat) (lines : List String),
      fileLeaks true (stripAllow s) c path n lines = fileLeaks true s c path n lines := by
  intro n lines
  induction lines generalizing n with
  | nil => rfl
  | cons line rest ih =>
    unfold fileLeaks
    rw [ih]
    congr 1
    exact stripRules_leaks c path line n s.ruleslist h2

theorem commitLeaks_strip (s : Scan) (c : CommitInfo)
    (h1 : allEmptyB s.allowlist = true)
    (h2 : ∀ r ∈ s.ruleslist, allEmptyOptB r.allowlist = true) :
    commitLeaks true (stripAllow s) c = commitLeaks true s c := by
  obtain ⟨hp, hc, _, _⟩ := allEmptyB_fields s.allowlist h1
  unfold commitLeaks
  have hcs : commitSuppressed s.allowlist c.commit.toHex = false := by
    simp [commitSuppressed, hc]
  have hcs2 : commitSuppressed (stripAllow s).allowlist c.commit.toHex = false := rfl
  rw [hcs, hcs2]
  simp only [Bool.false_eq_true, if_false]
  apply flatMap_congr_mem
  intro pf _
  have hps : pathSuppressed s.allowlist pf.1 = false := by simp [pathSuppressed, hp]
  have hps2 : pathSuppressed (stripAllow s).allowlist pf.1 = false := rfl
  rw [hps, hps2]
  simp only [Bool.false_eq_true, if_false]
  exact fileLeaks_strip s c pf.1 h2 1 (linesOf pf.2)

/-- C2: an Allowlist all four of whose lists are empty suppresses nothing —
no file path, commit id, offender or line is ever suppressed, and the scan is
identical to one with no allowlists at all. -/
theorem empty_allowlist_never_suppresses (s : Scan) (cs : List CommitInfo)
    (h1 : allEmptyB s.allowlist = true)
    (h2 : ∀ r ∈ s.ruleslist, allEmptyOptB r.allowlist = true) :
    runScan s cs = runScan (stripAllow s) cs ∧
    (∀ p, pathSuppressed s.allowlist p = false) ∧
    (∀ cid, commitSuppressed s.allowlist cid = false) ∧
    (∀ r ∈ s.ruleslist, ∀ off line, ruleSuppressed r off line = false) := by
  obtain ⟨hp, hc, hrx, hsw⟩ := allEmptyB_fields s.allowlist h1
  refine ⟨?_, ?_, ?_, ?_⟩
  · unfold runScan
    rw [runScanWith_eq, runScanWith_eq]
    have : cs.flatMap (commitLeaks true s) = cs.flatMap (commitLeaks true (stripAllow s)) :=
      flatMap_congr_mem cs fun c _ => (commitLeaks_strip s c h1 h2).symm
    rw [this]
  · intro p
    simp [pathSuppressed, hp]
  · intro cid
    simp [commitSuppressed, hc]
  · intro r hr off line
    exact ruleSuppressed_of_empty r (h2 r hr) off line

/-- Witness for C2 at the concrete no-allowlist configuration. -/
theorem empty_allowlist_never_suppresses_witness :
    (allEmptyB exScan.allowlist = true ∧
      (∀ r ∈ exScan.ruleslist, allEmptyOptB r.allowlist = true)) ∧
    (runScan exScan [exCommit] = runScan (stripAllow exScan) [exCommit] ∧
      (∀ p, pathSuppressed exScan.allowlist p = false) ∧
      (∀ cid, commitSuppressed exScan.allowlist cid = false) ∧
      (∀ r ∈ exScan.ruleslist, ∀ off line, ruleSuppressed r off line = false)) :=
  ⟨⟨by decide, by decide⟩,
    empty_allowlist_never_suppresses exScan [exCommit] (by decide) (by decide)⟩

/-! ## C3: keyword gating -/

theorem lineLeaks_gate (s : Scan) (c : CommitInfo) (path : String) (n : Nat) (line : String)
    (h : ∀ r ∈ s.ruleslist, ruleIsCandidate r (toLowerStr line).data = false →
        ruleMatchesOn r line = []) :
    lineLeaks false s c path n line = lineLeaks true s c path n line := by
  unfold lineLeaks rulesFor
  simp only [if_pos, Bool.false_eq_true, if_false]
  exact (flatMap_filter_of_nil s.ruleslist fun r hr hp => by rw [h r hr hp]; rfl).symm

theorem fileLeaks_gate (s : Scan) (c : CommitInfo) (path : String)
    (lines : List String)
    (h : ∀ line ∈ lines, ∀ r ∈ s.ruleslist,
        ruleIsCandidate r (toLowerStr line).data = false → ruleMatchesOn r line = []) :
    ∀ n : Nat, fileLeaks false s c path n lines = fileLeaks true s c path n lines := by
  induction lines with
  | nil => intro n; rfl
  | cons line rest ih =>
    intro n
    unfold fileLeaks
    rw [ih fun l hl => h l (by simp [hl]), lineLeaks_gate s c path n line (h line (by simp))]

theorem commitLeaks_gate (s : Scan) (c : CommitInfo)
    (h : ∀ pf ∈ c.files, ∀ line ∈ linesOf pf.2, ∀ r ∈ s.ruleslist,
        ruleIsCandidate r (toLowerStr line).data = false → ruleMatchesOn r line = []) :
    commitLeaks false s c = commitLeaks true s c := by
  unfold commitLeaks
  by_cases hcs : commitSuppressed s.allowlist c.commit.toHex = true
  · rw [hcs]
    simp
  · simp only [Bool.not_eq_true] at hcs
    rw [hcs]
    simp only [Bool.false_eq_true, if_false]
    apply flatMap_congr_mem
    intro pf hpf
    by_cases hps : pathSuppressed s.allowlist pf.1 = true
    · rw [hps]
      simp
    · simp only [Bool.not_eq_true] at hps
      rw [hps]
      simp only [Bool.false_eq_true, if_false]
      exact fileLeaks_gate s c pf.1 (linesOf pf.2) (h pf hpf) 1

/-- C3 counterexample: for a rule whose keyword occurs in no line even though
its regex matches, disabling keyword gating produces a different Results value
than the gated scan — the claimed equivalence fails for arbitrary rule sets. -/
theorem keyword_gating_counterexample :
    runScanWith false gateScan [gateCommit] ≠ runScanWith true gateScan [gateCommit] := by
  decide

/-- C3 amended: whenever every rule of the scan is keyword-sound on the input
(on every line of the scanned commits, a rule whose keywords are absent from
the lowercased line has no regex match there — keywords empty counts as
present), the scan with keyword gating disabled produces exactly the same
Results, leaks in the same order, as the gated scan. -/
theorem keyword_gating_equiv_of_sound (s : Scan) (cs : List CommitInfo)
    (h : ∀ c ∈ cs, ∀ pf ∈ c.files, ∀ line ∈ linesOf pf.2, ∀ r ∈ s.ruleslist,
        ruleIsCandidate r (toLowerStr line).data = false → ruleMatchesOn r line = []) :
    runScanWith false s cs = runScanWith true s cs := by
  rw [runScanWith_eq, runScanWith_eq]
  have : cs.flatMap (commitLeaks false s) = cs.flatMap (commitLeaks true s) :=
    flatMap_congr_mem cs fun c hc => commitLeaks_gate s c (h c hc)
  rw [this]

/-- Witness for the amended C3 at a keyword-sound configuration. -/
theorem keyword_gating_equiv_of_sound_witness :
    (∀ c ∈ [exCommit], ∀ pf ∈ c.files, ∀ line ∈ linesOf pf.2, ∀ r ∈ exScan.ruleslist,
        ruleIsCandidate r (toLowerStr line).data = false → ruleMatchesOn r line = []) ∧
    runScanWith false exScan [exCommit] = runScanWith true exScan [exCommit] :=
  ⟨by decide, keyword_gating_equiv_of_sound exScan [exCommit] (by decide)⟩

/-! ## C6: commit counting and the frame on `outputs` -/

/-- C6: processing a visited commit increments `commits_number` by exactly one
regardless of matches; when the commit yields zero surviving matches,
`outputs` is unchanged; over a whole scan, `commits_number` equals the number
of visited commits. -/
theorem commit_count_frame (gate : Bool) (s : Scan) (r : Results) (c : CommitInfo)
    (cs : List CommitInfo) (h : commitLeaks gate s c = []) :
    (processCommit gate s r c).commits_number = r.commits_number + 1 ∧
    (processCommit gate s r c).outputs = r.outputs ∧
    (runScanWith gate s cs).commits_number = cs.length := by
  refine ⟨rfl, ?_, ?_⟩
  · simp [processCommit, h]
  · rw [runScanWith_eq]

/-- Witness for C6 at a concrete quiet commit. -/
theorem commit_count_frame_witness :
    commitLeaks true exScan quietCommit = [] ∧
    ((processCommit true exScan Results.new quietCommit).commits_number =
        Results.new.commits_number + 1 ∧
      (processCommit true exScan Results.new quietCommit).outputs = Results.new.outputs ∧
      (runScanWith true exScan [quietCommit]).commits_number = [quietCommit].length) :=
  ⟨by decide, commit_count_frame true exScan Results.new quietCommit [quietCommit] (by decide)⟩

/-! ## C7: configuration errors -/

theorem firstDup_eq_none_iff (l : List String) : firstDup l = none ↔ l.Nodup := by
  induction l with
  | nil => simp [firstDup]
  | cons x xs ih =>
    by_cases hc : xs.contains x
    · have hx : x ∈ xs := by simpa using hc
      simp [firstDup, hc, List.nodup_cons, hx]
    · have hx : x ∉ xs := by simpa using hc
      simp [firstDup, hc, List.nodup_cons, hx, ih]

/-- C7: scan construction fails with a ConfigError exactly when two rules share
an id or some rule's regex fails to compile, and in that case the combined
configuration-and-scan run propagates that very error without producing any
Results. -/
theorem config_error_iff (rules : List Rule) (al : Allowlist) (cs : List CommitInfo) :
    ((∃ e, buildScan rules al = Except.error e) ↔
      (¬ (rules.map Rule.id).Nodup ∨ ∃ r ∈ rules, compileRegex r.regex = none)) ∧
    ∀ e, (scanRepo rules al cs = Except.error e ↔ buildScan rules al = Except.error e) := by
  constructor
  · constructor
    · rintro ⟨e, he⟩
      unfold buildScan at he
      cases hd : firstDup (rules.map Rule.id) with
      | some i =>
        left
        rw [← firstDup_eq_none_iff]
        simp [hd]
      | none =>
        rw [hd] at he
        cases hf : rules.find? (fun r => (compileRegex r.regex).isNone) with
        | some r =>
          right
          have hp := List.find?_some hf
          have hmem := List.mem_of_find?_eq_some hf
          exact ⟨r, hmem, by simpa [Option.isNone_iff_eq_none] using hp⟩
        | none =>
          rw [hf] at he
          simp at he
    · intro h
      cases h with
      | inl hnd =>
        cases hd : firstDup (rules.map Rule.id) with
        | none => exact absurd ((firstDup_eq_none_iff _).mp hd) hnd
        | some i => exact ⟨ConfigError.duplicateId i, by simp [buildScan, hd]⟩
      | inr h2 =>
        obtain ⟨r, hr, hcr⟩ := h2
        cases hd : firstDup (rules.map Rule.id) with
        | some i => exact ⟨ConfigError.duplicateId i, by simp [buildScan, hd]⟩
        | none =>
          cases hf : rules.find? (fun r => (compileRegex r.regex).isNone) with
          | some r2 => exact ⟨ConfigError.invalidRegex r2.regex, by simp [buildScan, hd, hf]⟩
          | none =>
            have hnone := List.find?_eq_none.mp hf r hr
            simp [hcr] at hnone
  · intro e
    unfold scanRepo
    cases hb : buildScan rules al with
    | error e2 => simp
    | ok s => simp

/-! ## C9: `regex_target` values and dispatch -/

/-- C9 counterexample: a scan condition whose per-rule allowlist carries
`regex_target = "offender"` — neither "match" nor "line" — is nevertheless
used by the scan, which runs and produces leaks; nothing constrains the field.
-/
theorem regex_target_counterexample :
    (¬ ∀ al ∈ allowlistsUsed targetScan,
        al.regex_target = "match" ∨ al.regex_target = "line") ∧
    (runScan targetScan [exCommit]).outputs ≠ [] := by
  constructor
  · decide
  · decide

/-- C9 amended: `Allowlist::new` has `regex_target = "match"`; regex/stopword
suppression evaluates against the offender text when `regex_target` is
"match" and against the full line when it is "line" (and in those modes is
independent of the line, respectively of the offender). -/
theorem regex_target_dispatch (al : Allowlist) (off line : String) :
    Allowlist.new.regex_target = "match" ∧
    candidateSuppressed { al with regex_target := "match" } off line = textSuppressed al off ∧
    candidateSuppressed { al with regex_target := "line" } off line = textSuppressed al line ∧
    (∀ off2, candidateSuppressed { al with regex_target := "line" } off line =
      candidateSuppressed { al with regex_target := "line" } off2 line) ∧
    (∀ line2, candidateSuppressed { al with regex_target := "match" } off line =
      candidateSuppressed { al with regex_target := "match" } off line2) := by
  refine ⟨rfl, ?_, ?_, ?_, ?_⟩ <;> simp [candidateSuppressed, textSuppressed]

/-! ## C10: the default-constructed Allowlist -/

/-- C10: `Allowlist::new` (and `default`, which equals it) has all four
suppression lists empty and `regex_target = "match"`, and suppresses nothing
at either scope. -/
theorem allowlist_new_default :
    Allowlist.new.paths = [] ∧ Allowlist.new.commits = [] ∧
    Allowlist.new.regexes = [] ∧ Allowlist.new.stopwords = [] ∧
    Allowlist.new.regex_target = "match" ∧ Allowlist.default = Allowlist.new ∧
    (∀ p, pathSuppressed Allowlist.new p = false) ∧
    (∀ cid, commitSuppressed Allowlist.new cid = false) ∧
    (∀ off line, candidateSuppressed Allowlist.new off line = false) := by
  refine ⟨rfl, rfl, rfl, rfl, rfl, rfl, ?_, ?_, ?_⟩
  · intro p
    simp [pathSuppressed, Allowlist.new]
  · intro cid
    simp [commitSuppressed, Allowlist.new]
  · intro off line
    simp [candidateSuppressed, textSuppressed, Allowlist.new]

/-! ## C4: allowlist monotonicity -/

theorem addOne_sub (a b : Allowlist) (h : addOne a b) :
    b.regex_target = a.regex_target ∧
    (∀ x ∈ a.paths, x ∈ b.paths) ∧ (∀ x ∈ a.commits, x ∈ b.commits) ∧
    (∀ x ∈ a.regexes, x ∈ b.regexes) ∧ (∀ x ∈ a.stopwords, x ∈ b.stopwords) := by
  obtain ⟨ht, hc⟩ := h
  refine ⟨ht, ?_, ?_, ?_, ?_⟩ <;>
    rcases hc with ⟨x, h1, h2, h3, h4⟩ | ⟨x, h1, h2, h3, h4⟩ | ⟨x, h1, h2, h3, h4⟩ |
      ⟨x, h1, h2, h3, h4⟩ <;>
    intro y hy <;> simp [h1, h2, h3, h4, hy]

theorem any_mono {α : Type} {p : α → Bool} (l1 l2 : List α) (hsub : ∀ x ∈ l1, x ∈ l2)
    (h : l1.any p = true) : l2.any p = true := by
  rw [List.any_eq_true] at h ⊢
  obtain ⟨x, hx, hp⟩ := h
  exact ⟨x, hsub x hx, hp⟩

theorem pathSuppressed_mono (a b : Allowlist) (h : addOne a b) (p : String)
    (hs : pathSuppressed a p = true) : pathSuppressed b p = true :=
  any_mono a.paths b.paths (addOne_sub a b h).2.1 hs

theorem commitSuppressed_mono (a b : Allowlist) (h : addOne a b) (cid : String)
    (hs : commitSuppressed a cid = true) : commitSuppressed b cid = true := by
  have hmem : cid ∈ a.commits := by simpa [commitSuppressed] using hs
  have : cid ∈ b.commits := (addOne_sub a b h).2.2.1 cid hmem
  simpa [commitSuppressed] using this

theorem textSuppressed_mono (a b : Allowlist) (h : addOne a b) (t : String)
    (hs : textSuppressed a t = true) : textSuppressed b t = true := by
  obtain ⟨_, _, _, hrx, hsw⟩ := addOne_sub a b h
  unfold textSuppressed at hs ⊢
  rcases Bool.or_eq_true_iff.mp hs with h1 | h2
  · exact Bool.or_eq_true_iff.mpr (Or.inl (any_mono _ _ hrx h1))
  · exact Bool.or_eq_true_iff.mpr (Or.inr (any_mono _ _ hsw h2))

theorem candidateSuppressed_mono (a b : Allowlist) (h : addOne a b) (off line : String)
    (hs : candidateSuppressed a off line = true) : candidateSuppressed b off line = true := by
  have ht : b.regex_target = a.regex_target := (addOne_sub a b h).1
  unfold candidateSuppressed at hs ⊢
  rw [ht]
  by_cases hl : a.regex_target = "line"
  · rw [if_pos hl] at hs ⊢
    exact textSuppressed_mono a b h line hs
  · rw [if_neg hl] at hs ⊢
    exact textSuppressed_mono a b h off hs

theorem fileLeaks_congr_rules (gate : Bool) (s s2 : Scan) (hrl : s2.ruleslist = s.ruleslist)
    (c : CommitInfo) (path : String) :
    ∀ (n : Nat) (lines : List String),
      fileLeaks gate s2 c path n lines = fileLeaks gate s c path n lines := by
  intro n lines
  induction lines generalizing n with
  | nil => rfl
  | cons line rest ih =>
    unfold fileLeaks
    rw [ih]
    congr 1
    unfold lineLeaks
    rw [hrl]

theorem commitLeaks_mono_global (s s2 : Scan) (c : CommitInfo)
    (hrl : s2.ruleslist = s.ruleslist) (hao : addOne s.allowlist s2.allowlist) :
    List.Sublist (commitLeaks true s2 c) (commitLeaks true s c) := by
  unfold commitLeaks
  by_cases h2 : commitSuppressed s2.allowlist c.commit.toHex = true
  · rw [if_pos h2]
    exact List.nil_sublist _
  · have h1 : commitSuppressed s.allowlist c.commit.toHex = false := by
      cases hx : commitSuppressed s.allowlist c.commit.toHex with
      | false => rfl
      | true => exact absurd (commitSuppressed_mono _ _ hao _ hx) h2
    rw [if_neg h2, h1]
    simp only [Bool.false_eq_true, if_false]
    apply flatMap_sublist
    intro pf _
    by_cases hp2 : pathSuppressed s2.allowlist pf.1 = true
    · rw [if_pos hp2]
      exact List.nil_sublist _
    · have hp1 : pathSuppressed s.allowlist pf.1 = false := by
        cases hx : pathSuppressed s.allowlist pf.1 with
        | false => rfl
        | true => exact absurd (pathSuppressed_mono _ _ hao _ hx) hp2
      rw [if_neg hp2, hp1]
      simp only [Bool.false_eq_true, if_false]
      rw [fileLeaks_congr_rules true s s2 hrl c pf.1]

theorem lineLeaks_mono_rule (s s2 : Scan) (pre post : List Rule) (r : Rule) (al al2 : Allowlist)
    (hral : r.allowlist = some al) (hao : addOne al al2)
    (h1 : s.ruleslist = pre ++ r :: post)
    (h2 : s2.ruleslist = pre ++ { r with allowlist := some al2 } :: post)
    (c : CommitInfo) (path : String) (n : Nat) (line : String) :
    List.Sublist (lineLeaks true s2 c path n line) (lineLeaks true s c path n line) := by
  unfold lineLeaks
  rw [h1, h2]
  have hrf : ∀ rs : List Rule,
      rulesFor true rs line = rs.filter (fun a => ruleIsCandidate a (toLowerStr line).data) :=
    fun rs => rfl
  rw [hrf, hrf, List.filter_append, List.filter_append, List.flatMap_append,
    List.flatMap_append, List.filter_cons, List.filter_cons]
  apply List.Sublist.append (List.Sublist.refl _)
  have hcand : ruleIsCandidate { r with allowlist := some al2 } (toLowerStr line).data =
      ruleIsCandidate r (toLowerStr line).data := rfl
  by_cases hc : ruleIsCandidate r (toLowerStr line).data = true
  · simp only [hcand, hc, eq_self_iff_true, if_true, List.flatMap_cons]
    apply List.Sublist.append
    · have hmo : ruleMatchesOn { r with allowlist := some al2 } line = ruleMatchesOn r line :=
        rfl
      rw [hmo]
      apply filterMap_sublist_mono
      intro off _ b hb
      by_cases hs2 : ruleSuppressed { r with allowlist := some al2 } off line = true
      · rw [if_pos hs2] at hb
        cases hb
      · rw [if_neg hs2] at hb
        have hs1 : ruleSuppressed r off line = false := by
          cases hx : ruleSuppressed r off line with
          | false => rfl
          | true =>
            have hcx : candidateSuppressed al off line = true := by
              have := hx
              unfold ruleSuppressed at this
              rw [hral] at this
              exact this
            have : ruleSuppressed { r with allowlist := some al2 } off line = true :=
              candidateSuppressed_mono al al2 hao off line hcx
            exact absurd this hs2
        rw [hs1]
        simp only [Bool.false_eq_true, if_false]
        exact hb
    · exact List.Sublist.refl _
  · have hcf : ruleIsCandidate r (toLowerStr line).data = false := by simpa using hc
    simp only [hcand, hcf, Bool.false_eq_true, if_false]
    exact List.Sublist.refl _

theorem fileLeaks_mono_rule (s s2 : Scan) (pre post : List Rule) (r : Rule) (al al2 : Allowlist)
    (hral : r.allowlist = some al) (hao : addOne al al2)
    (h1 : s.ruleslist = pre ++ r :: post)
    (h2 : s2.ruleslist = pre ++ { r with allowlist := some al2 } :: post)
    (c : CommitInfo) (path : String) :
    ∀ (n : Nat) (lines : List String),
      List.Sublist (fileLeaks true s2 c path n lines) (fileLeaks true s c path n lines) := by
  intro n lines
  induction lines generalizing n with
  | nil => exact List.Sublist.refl _
  | cons line rest ih =>
    unfold fileLeaks
    exact List.Sublist.append
      (lineLeaks_mono_rule s s2 pre post r al al2 hral hao h1 h2 c path n line) (ih (n + 1))

theorem commitLeaks_mono_rule (s s2 : Scan) (pre post : List Rule) (r : Rule)
    (al al2 : Allowlist) (haleq : s2.allowlist = s.allowlist)
    (hral : r.allowlist = some al) (hao : addOne al al2)
    (h1 : s.ruleslist = pre ++ r :: post)
    (h2 : s2.ruleslist = pre ++ { r with allowlist := some al2 } :: post)
    (c : CommitInfo) :
    List.Sublist (commitLeaks true s2 c) (commitLeaks true s c) := by
  unfold commitLeaks
  rw [haleq]
  by_cases hcs : commitSuppressed s.allowlist c.commit.toHex = true
  · rw [if_pos hcs, if_pos hcs]
  · rw [if_neg hcs, if_neg hcs]
    apply flatMap_sublist
    intro pf _
    by_cases hps : pathSuppressed s.allowlist pf.1 = true
    · rw [if_pos hps, if_pos hps]
    · rw [if_neg hps, if_neg hps]
      exact fileLeaks_mono_rule s s2 pre post r al al2 hral hao h1 h2 c pf.1 1 (linesOf pf.2)

/-- C4: for a fixed rule set and commit range, growing any allowlist — the
global one or any rule's — by one entry in any of its four lists can only
remove Leaks from the result, never add any: the larger allowlist's Leak set
is contained in the smaller's. -/
theorem allowlist_monotone (s s2 : Scan) (cs : List CommitInfo) (h : scanAddOne s s2) :
    ∀ leak ∈ (runScan s2 cs).outputs, leak ∈ (runScan s cs).outputs := by
  have hsub : List.Sublist (runScan s2 cs).outputs (runScan s cs).outputs := by
    unfold runScan
    rw [runScanWith_eq, runScanWith_eq]
    show List.Sublist (cs.flatMap (commitLeaks true s2)) (cs.flatMap (commitLeaks true s))
    apply flatMap_sublist
    intro c _
    rcases h with ⟨hrl, hao⟩ | ⟨haleq, pre, r, al, al2, post, hral, hao, h1, h2⟩
    · exact commitLeaks_mono_global s s2 c hrl hao
    · exact commitLeaks_mono_rule s s2 pre post r al al2 haleq hral hao h1 h2 c
  intro leak hk
  exact hsub.subset hk

/-- Witness for C4: growing the concrete per-rule allowlist by the stopword
"api" suppresses the leak, and every remaining leak was already present. -/
theorem allowlist_monotone_witness :
    scanAddOne exScanAl exScanAl2 ∧
    ∀ leak ∈ (runScan exScanAl2 [exCommit]).outputs,
      leak ∈ (runScan exScanAl [exCommit]).outputs := by
  have hao : scanAddOne exScanAl exScanAl2 :=
    Or.inr ⟨rfl, [], exRuleAl, Allowlist.new, { Allowlist.new with stopwords := ["api"] }, [],
      rfl, ⟨rfl, Or.inr (Or.inr (Or.inr ⟨"api", rfl, rfl, rfl, rfl⟩))⟩, rfl, rfl⟩
  exact ⟨hao, allowlist_monotone exScanAl exScanAl2 [exCommit] hao⟩

/-! ## Genuineness of matches: every Leak's offender is a real regex match -/

theorem tryLens_some (re : Rgx) (suffix : List Char) (lens : List Nat) (off : List Char)
    (h : tryLens re suffix lens = some off) :
    re.rmatch off = true ∧ ∃ L, off = suffix.take L := by
  induction lens with
  | nil => simp [tryLens] at h
  | cons L rest ih =>
    unfold tryLens at h
    by_cases hm : re.rmatch (suffix.take L) = true
    · rw [if_pos hm] at h
      cases h
      exact ⟨hm, L, rfl⟩
    · rw [if_neg hm] at h
      exact ih h

theorem matchAt_some (re : Rgx) (line : List Char) (pos : Nat) (off : List Char)
    (h : matchAt re line pos = some off) :
    re.rmatch off = true ∧ ∃ pre post, line = pre ++ off ++ post := by
  obtain ⟨hm, L, hoff⟩ := tryLens_some _ _ _ _ h
  refine ⟨hm, line.take pos, (line.drop pos).drop L, ?_⟩
  rw [hoff]
  conv_lhs => rw [← List.take_append_drop pos line, ← List.take_append_drop L (line.drop pos)]
  rw [List.append_assoc]

theorem findMatchesFrom_mem (re : Rgx) (line : List Char) :
    ∀ (fuel pos0 : Nat) (pr : Nat × List Char),
      pr ∈ findMatchesFrom re line fuel pos0 →
      re.rmatch pr.2 = true ∧ ∃ pre post, line = pre ++ pr.2 ++ post := by
  intro fuel
  induction fuel with
  | zero =>
    intro pos0 pr h
    simp [findMatchesFrom] at h
  | succ fuel ih =>
    intro pos0 pr h
    unfold findMatchesFrom at h
    by_cases hle : pos0 ≤ line.length
    · rw [if_pos hle] at h
      cases hma : matchAt re line pos0 with
      | some off =>
        rw [hma] at h
        rcases List.mem_cons.mp h with heq | htail
        · subst heq
          exact matchAt_some re line pos0 off hma
        · exact ih _ pr htail
      | none =>
        rw [hma] at h
        exact ih _ pr h
    · rw [if_neg hle] at h
      simp at h

theorem ruleMatchesOn_mem (r : Rule) (line off : String)
    (h : off ∈ ruleMatchesOn r line) :
    ∃ re, compileRegex r.regex = some re ∧ re.rmatch off.data = true ∧
      ∃ pre post, line.data = pre ++ off.data ++ post := by
  unfold ruleMatchesOn at h
  cases hcr : compileRegex r.regex with
  | none =>
    rw [hcr] at h
    simp at h
  | some re =>
    rw [hcr] at h
    obtain ⟨pr, hpr, hoff⟩ := List.mem_map.mp h
    have hp := findMatchesFrom_mem re line.data _ _ pr hpr
    have hdata : off.data = pr.2 := by rw [← hoff]
    rw [hdata]
    exact ⟨re, rfl, hp.1, hp.2⟩

theorem rulesFor_subset (gate : Bool) (rules : List Rule) (line : String) (r : Rule)
    (h : r ∈ rulesFor gate rules line) : r ∈ rules := by
  cases gate with
  | false => simpa [rulesFor] using h
  | true =>
    have h2 : r ∈ rules.filter (fun a => ruleIsCandidate a (toLowerStr line).data) := by
      simpa [rulesFor] using h
    exact List.mem_of_mem_filter h2

theorem mem_lineLeaks (gate : Bool) (s : Scan) (c : CommitInfo) (path : String) (ln : Nat)
    (line : String) (leak : Leak) (h : leak ∈ lineLeaks gate s c path ln line) :
    ∃ r, r ∈ s.ruleslist ∧ ∃ off, off ∈ ruleMatchesOn r line ∧
      ruleSuppressed r off line = false ∧ leak = mkLeak c path line ln r.id off := by
  unfold lineLeaks at h
  obtain ⟨r, hr, h2⟩ := List.mem_flatMap.mp h
  obtain ⟨off, hoff, h3⟩ := List.mem_filterMap.mp h2
  by_cases hsup : ruleSuppressed r off line = true
  · rw [if_pos hsup] at h3
    cases h3
  · rw [if_neg hsup] at h3
    cases h3
    exact ⟨r, rulesFor_subset gate s.ruleslist line r hr, off, hoff, by simpa using hsup, rfl⟩

theorem mem_fileLeaks (gate : Bool) (s : Scan) (c : CommitInfo) (path : String) (leak : Leak) :
    ∀ (n : Nat) (lines : List String), leak ∈ fileLeaks gate s c path n lines →
      ∃ k line, lines[k]? = some line ∧ leak ∈ lineLeaks gate s c path (n + k) line := by
  intro n lines
  induction lines generalizing n with
  | nil =>
    intro h
    simp [fileLeaks] at h
  | cons line rest ih =>
    intro h
    unfold fileLeaks at h
    rcases List.mem_append.mp h with h1 | h2
    · exact ⟨0, line, by simp, by simpa using h1⟩
    · obtain ⟨k, l2, hk, hm⟩ := ih (n + 1) h2
      refine ⟨k + 1, l2, by simpa using hk, ?_⟩
      rw [show n + (k + 1) = n + 1 + k by omega]
      exact hm

theorem mem_commitLeaks (gate : Bool) (s : Scan) (c : CommitInfo) (leak : Leak)
    (h : leak ∈ commitLeaks gate s c) :
    ∃ pf, pf ∈ c.files ∧ leak ∈ fileLeaks gate s c pf.1 1 (linesOf pf.2) := by
  unfold commitLeaks at h
  by_cases hcs : commitSuppressed s.allowlist c.commit.toHex = true
  · rw [if_pos hcs] at h
    simp at h
  · rw [if_neg hcs] at h
    obtain ⟨pf, hpf, h2⟩ := List.mem_flatMap.mp h
    by_cases hps : pathSuppressed s.allowlist pf.1 = true
    · rw [if_pos hps] at h2
      simp at h2
    · rw [if_neg hps] at h2
      exact ⟨pf, hpf, h2⟩

theorem mem_runScan_outputs (gate : Bool) (s : Scan) (cs : List CommitInfo) (leak : Leak)
    (h : leak ∈ (runScanWith gate s cs).outputs) :
    ∃ c, c ∈ cs ∧ leak ∈ commitLeaks gate s c := by
  rw [runScanWith_eq] at h
  have h2 : leak ∈ cs.flatMap (commitLeaks gate s) := h
  obtain ⟨c, hc, hm⟩ := List.mem_flatMap.mp h2
  exact ⟨c, hc, hm⟩

/-- C1: every Leak ever appended to `Results.outputs`, under any configuration,
carries an `offender` that is a genuine match of the named rule's compiled
regex, occurring inside `line`, and `line` really is line `line_number` of the
reported file of one of the scanned commits. -/
theorem leak_offender_genuine (s : Scan) (cs : List CommitInfo) (leak : Leak)
    (h : leak ∈ (runScan s cs).outputs) :
    ∃ r, r ∈ s.ruleslist ∧ r.id = leak.rule ∧
      (∃ re, compileRegex r.regex = some re ∧ re.rmatch leak.offender.data = true) ∧
      (∃ pre post, leak.line.data = pre ++ leak.offender.data ++ post) ∧
      ∃ c, c ∈ cs ∧ ∃ pf, pf ∈ c.files ∧ pf.1 = leak.file ∧
        (linesOf pf.2)[leak.line_number - 1]? = some leak.line := by
  obtain ⟨c, hc, hcl⟩ := mem_runScan_outputs true s cs leak h
  obtain ⟨pf, hpf, hfl⟩ := mem_commitLeaks true s c leak hcl
  obtain ⟨k, line, hk, hll⟩ := mem_fileLeaks true s c pf.1 leak 1 (linesOf pf.2) hfl
  obtain ⟨r, hr, off, hoff, hsup, heq⟩ := mem_lineLeaks true s c pf.1 (1 + k) line leak hll
  subst heq
  obtain ⟨re, hre, hrm, pre, post, hsplit⟩ := ruleMatchesOn_mem r line off hoff
  refine ⟨r, hr, rfl, ⟨re, hre, hrm⟩, ⟨pre, post, hsplit⟩, c, hc, pf, hpf, rfl, ?_⟩
  have hidx : (mkLeak c pf.1 line (1 + k) r.id off).line_number - 1 = k := by
    simp [mkLeak]
  rw [hidx]
  have hln : (mkLeak c pf.1 line (1 + k) r.id off).line = line := rfl
  rw [hln]
  exact hk

/-- Witness for C1 at the concrete configuration producing `exLeak`. -/
theorem leak_offender_genuine_witness :
    exLeak ∈ (runScan exScan [exCommit]).outputs ∧
    (∃ r, r ∈ exScan.ruleslist ∧ r.id = exLeak.rule ∧
      (∃ re, compileRegex r.regex = some re ∧ re.rmatch exLeak.offender.data = true) ∧
      (∃ pre post, exLeak.line.data = pre ++ exLeak.offender.data ++ post) ∧
      ∃ c, c ∈ [exCommit] ∧ ∃ pf, pf ∈ c.files ∧ pf.1 = exLeak.file ∧
        (linesOf pf.2)[exLeak.line_number - 1]? = some exLeak.line) :=
  ⟨by decide, leak_offender_genuine exScan [exCommit] exLeak (by decide)⟩

/-! ## C8: the commit identifier is raw bytes, not a handle -/

theorem lex_nat_total (x : List Nat) : ∀ y : List Nat, x ≠ y →
    List.Lex (fun a b : Nat => a < b) x y ∨ List.Lex (fun a b : Nat => a < b) y x := by
  induction x with
  | nil =>
    intro y hne
    cases y with
    | nil => exact absurd rfl hne
    | cons b bs => exact Or.inl List.Lex.nil
  | cons a as ih =>
    intro y hne
    cases y with
    | nil => exact Or.inr List.Lex.nil
    | cons b bs =>
      rcases lt_trichotomy a b with hlt | heq | hgt
      · exact Or.inl (List.Lex.rel hlt)
      · subst heq
        have hne2 : as ≠ bs := fun hh => hne (by rw [hh])
        exact (ih bs hne2).imp List.Lex.cons List.Lex.cons
      · exact Or.inr (List.Lex.rel hgt)

/-- C8: a commit identifier is a fixed-size (20-byte) sequence; equality is
exactly equality of the raw bytes, the strict order is exactly the
lexicographic order on the raw bytes (and is total on distinct identifiers),
and each Leak's `commit` field is the canonical hex string of the identifier
of one of the scanned commits. -/
theorem commit_id_raw_bytes (a b : Oid) (s : Scan) (cs : List CommitInfo) (leak : Leak)
    (h : leak ∈ (runScan s cs).outputs) :
    (a = b ↔ a.val = b.val) ∧
    (Oid.lt a b ↔ List.Lex (fun x y : Nat => x < y) a.val b.val) ∧
    a.val.length = 20 ∧
    (a.val ≠ b.val → Oid.lt a b ∨ Oid.lt b a) ∧
    ∃ c, c ∈ cs ∧ leak.commit = c.commit.toHex := by
  refine ⟨Subtype.ext_iff, Iff.rfl, a.property.1, fun hne => lex_nat_total a.val b.val hne, ?_⟩
  obtain ⟨c, hc, hcl⟩ := mem_runScan_outputs true s cs leak h
  obtain ⟨pf, _, hfl⟩ := mem_commitLeaks true s c leak hcl
  obtain ⟨k, line, _, hll⟩ := mem_fileLeaks true s c pf.1 leak 1 (linesOf pf.2) hfl
  obtain ⟨r, _, off, _, _, heq⟩ := mem_lineLeaks true s c pf.1 (1 + k) line leak hll
  subst heq
  exact ⟨c, hc, rfl⟩

/-! ## C5: determinism and output ordering -/

theorem pairwise_of_all {α : Type} (R : α → α → Prop) (l : List α)
    (h : ∀ a ∈ l, ∀ b ∈ l, R a b) : l.Pairwise R := by
  induction l with
  | nil => exact List.Pairwise.nil
  | cons x xs ih =>
    exact List.Pairwise.cons (fun b hb => h x (by simp) b (by simp [hb]))
      (ih fun a ha b hb => h a (by simp [ha]) b (by simp [hb]))

theorem keyLe_of_eq_le (a b : LeakKey) (h1 : a.1 = b.1) (h2 : a.2.1 = b.2.1)
    (h3 : a.2.2.1 = b.2.2.1) (h4 : a.2.2.2 ≤ b.2.2.2) : keyLe a b :=
  Or.inr ⟨h1, Or.inr ⟨h2, Or.inr ⟨h3, h4⟩⟩⟩

theorem keyLe_of_lt1 (a b : LeakKey) (h : a.1 < b.1) : keyLe a b := Or.inl h

theorem keyLe_of_lt2 (a b : LeakKey) (h1 : a.1 = b.1) (h : a.2.1 < b.2.1) : keyLe a b :=
  Or.inr ⟨h1, Or.inl h⟩

theorem keyLe_of_lt3 (a b : LeakKey) (h1 : a.1 = b.1) (h2 : a.2.1 = b.2.1)
    (h : a.2.2.1 < b.2.2.1) : keyLe a b :=
  Or.inr ⟨h1, Or.inr ⟨h2, Or.inl h⟩⟩

theorem rulesK_map_snd (s : Scan) (c : CommitInfo) (path line : String)
    (cIdx fIdx lineNo : Nat) :
    ∀ (rIdx : Nat) (rs : List Rule),
      (rulesK s c path line cIdx fIdx lineNo rIdx rs).map Prod.snd =
        rs.flatMap (fun r => (ruleMatchesOn r line).filterMap fun off =>
          if ruleSuppressed r off line then none
          else some (mkLeak c path line lineNo r.id off)) := by
  intro rIdx rs
  induction rs generalizing rIdx with
  | nil => rfl
  | cons r rest ih =>
    unfold rulesK
    rw [List.map_append, ih (rIdx + 1), List.flatMap_cons]
    congr 1
    rw [List.map_filterMap]
    apply filterMap_congr_mem
    intro off _
    by_cases hs : ruleSuppressed r off line = true <;> simp [hs]

theorem linesK_map_snd (s : Scan) (c : CommitInfo) (path : String) (cIdx fIdx : Nat) :
    ∀ (n : Nat) (lines : List String),
      (linesK s c path cIdx fIdx n lines).map Prod.snd = fileLeaks true s c path n lines := by
  intro n lines
  induction lines generalizing n with
  | nil => rfl
  | cons line rest ih =>
    unfold linesK fileLeaks
    rw [List.map_append, ih (n + 1), rulesK_map_snd]
    rfl

theorem filesK_map_snd (s : Scan) (c : CommitInfo) (cIdx : Nat) :
    ∀ (fIdx : Nat) (files : List (String × String)),
      (filesK s c cIdx fIdx files).map Prod.snd =
        files.flatMap (fun pf => if pathSuppressed s.allowlist pf.1 then []
          else fileLeaks true s c pf.1 1 (linesOf pf.2)) := by
  intro fIdx files
  induction files generalizing fIdx with
  | nil => rfl
  | cons pf rest ih =>
    unfold filesK
    rw [List.map_append, ih (fIdx + 1), List.flatMap_cons]
    congr 1
    by_cases hp : pathSuppressed s.allowlist pf.1 = true
    · simp [hp]
    · simp [hp, linesK_map_snd]

theorem commitLeaksK_map_snd (s : Scan) (cIdx : Nat) (c : CommitInfo) :
    (commitLeaksK s cIdx c).map Prod.snd = commitLeaks true s c := by
  unfold commitLeaksK commitLeaks
  by_cases h : commitSuppressed s.allowlist c.commit.toHex = true <;>
    simp [h, filesK_map_snd]

theorem commitsK_map_snd (s : Scan) :
    ∀ (cIdx : Nat) (cs : List CommitInfo),
      (commitsK s cIdx cs).map Prod.snd = cs.flatMap (commitLeaks true s) := by
  intro cIdx cs
  induction cs generalizing cIdx with
  | nil => rfl
  | cons c rest ih =>
    unfold commitsK
    rw [List.map_append, ih (cIdx + 1), List.flatMap_cons, commitLeaksK_map_snd]

theorem rulesK_block_key (c : CommitInfo) (path line : String)
    (cIdx fIdx lineNo rIdx : Nat) (r : Rule) (kl : LeakKey × Leak)
    (h : kl ∈ (ruleMatchesOn r line).filterMap fun off =>
      if ruleSuppressed r off line then none
      else some ((cIdx, fIdx, lineNo, rIdx), mkLeak c path line lineNo r.id off)) :
    kl.1 = (cIdx, fIdx, lineNo, rIdx) := by
  obtain ⟨off, _, heq⟩ := List.mem_filterMap.mp h
  by_cases hs : ruleSuppressed r off line = true
  · rw [if_pos hs] at heq
    cases heq
  · rw [if_neg hs] at heq
    cases heq
    rfl

theorem rulesK_key (s : Scan) (c : CommitInfo) (path line : String)
    (cIdx fIdx lineNo : Nat) :
    ∀ (rIdx : Nat) (rs : List Rule) (kl : LeakKey × Leak),
      kl ∈ rulesK s c path line cIdx fIdx lineNo rIdx rs →
      kl.1.1 = cIdx ∧ kl.1.2.1 = fIdx ∧ kl.1.2.2.1 = lineNo ∧ rIdx ≤ kl.1.2.2.2 := by
  intro rIdx rs
  induction rs generalizing rIdx with
  | nil =>
    intro kl h
    simp [rulesK] at h
  | cons r rest ih =>
    intro kl h
    unfold rulesK at h
    rcases List.mem_append.mp h with h1 | h2
    · have hk := rulesK_block_key c path line cIdx fIdx lineNo rIdx r kl h1
      rw [hk]
      exact ⟨rfl, rfl, rfl, le_refl _⟩
    · obtain ⟨ha, hb, hc2, hd⟩ := ih (rIdx + 1) kl h2
      exact ⟨ha, hb, hc2, by omega⟩

theorem rulesK_pairwise (s : Scan) (c : CommitInfo) (path line : String)
    (cIdx fIdx lineNo : Nat) :
    ∀ (rIdx : Nat) (rs : List Rule),
      List.Pairwise (fun a b : LeakKey × Leak => keyLe a.1 b.1)
        (rulesK s c path line cIdx fIdx lineNo rIdx rs) := by
  intro rIdx rs
  induction rs generalizing rIdx with
  | nil => exact List.Pairwise.nil
  | cons r rest ih =>
    unfold rulesK
    rw [List.pairwise_append]
    refine ⟨?_, ih (rIdx + 1), ?_⟩
    · apply pairwise_of_all
      intro a ha b hb
      have ka := rulesK_block_key c path line cIdx fIdx lineNo rIdx r a ha
      have kb := rulesK_block_key c path line cIdx fIdx lineNo rIdx r b hb
      exact keyLe_of_eq_le a.1 b.1 (by rw [ka, kb]) (by rw [ka, kb]) (by rw [ka, kb])
        (by rw [ka, kb])
    · intro a ha b hb
      have ka := rulesK_block_key c path line cIdx fIdx lineNo rIdx r a ha
      have kb := rulesK_key s c path line cIdx fIdx lineNo (rIdx + 1) rest b hb
      refine keyLe_of_eq_le a.1 b.1 (by rw [ka]; exact kb.1.symm) (by rw [ka]; exact kb.2.1.symm)
        (by rw [ka]; exact kb.2.2.1.symm) ?_
      rw [ka]
      show rIdx ≤ b.1.2.2.2
      have := kb.2.2.2
      omega

theorem linesK_key (s : Scan) (c : CommitInfo) (path : String) (cIdx fIdx : Nat) :
    ∀ (n : Nat) (lines : List String) (kl : LeakKey × Leak),
      kl ∈ linesK s c path cIdx fIdx n lines →
      kl.1.1 = cIdx ∧ kl.1.2.1 = fIdx ∧ n ≤ kl.1.2.2.1 := by
  intro n lines
  induction lines generalizing n with
  | nil =>
    intro kl h
    simp [linesK] at h
  | cons line rest ih =>
    intro kl h
    unfold linesK at h
    rcases List.mem_append.mp h with h1 | h2
    · obtain ⟨ha, hb, hc2, _⟩ := rulesK_key s c path line cIdx fIdx n 0 _ kl h1
      exact ⟨ha, hb, by omega⟩
    · obtain ⟨ha, hb, hc2⟩ := ih (n + 1) kl h2
      exact ⟨ha, hb, by omega⟩

theorem linesK_pairwise (s : Scan) (c : CommitInfo) (path : String) (cIdx fIdx : Nat) :
    ∀ (n : Nat) (lines : List String),
      List.Pairwise (fun a b : LeakKey × Leak => keyLe a.1 b.1)
        (linesK s c path cIdx fIdx n lines) := by
  intro n lines
  induction lines generalizing n with
  | nil => exact List.Pairwise.nil
  | cons line rest ih =>
    unfold linesK
    rw [List.pairwise_append]
    refine ⟨rulesK_pairwise s c path line cIdx fIdx n 0 _, ih (n + 1), ?_⟩
    intro a ha b hb
    obtain ⟨ha1, ha2, ha3, _⟩ := rulesK_key s c path line cIdx fIdx n 0 _ a ha
    obtain ⟨hb1, hb2, hb3⟩ := linesK_key s c path cIdx fIdx (n + 1) rest b hb
    exact keyLe_of_lt3 a.1 b.1 (by rw [ha1, hb1]) (by rw [ha2, hb2]) (by omega)

theorem filesK_key (s : Scan) (c : CommitInfo) (cIdx : Nat) :
    ∀ (fIdx : Nat) (files : List (String × String)) (kl : LeakKey × Leak),
      kl ∈ filesK s c cIdx fIdx files → kl.1.1 = cIdx ∧ fIdx ≤ kl.1.2.1 := by
  intro fIdx files
  induction files generalizing fIdx with
  | nil =>
    intro kl h
    simp [filesK] at h
  | cons pf rest ih =>
    intro kl h
    unfold filesK at h
    rcases List.mem_append.mp h with h1 | h2
    · by_cases hp : pathSuppressed s.allowlist pf.1 = true
      · rw [if_pos hp] at h1
        simp at h1
      · rw [if_neg hp] at h1
        obtain ⟨ha, hb, _⟩ := linesK_key s c pf.1 cIdx fIdx 1 (linesOf pf.2) kl h1
        exact ⟨ha, by omega⟩
    · obtain ⟨ha, hb⟩ := ih (fIdx + 1) kl h2
      exact ⟨ha, by omega⟩

theorem filesK_pairwise (s : Scan) (c : CommitInfo) (cIdx : Nat) :
    ∀ (fIdx : Nat) (files : List (String × String)),
      List.Pairwise (fun a b : LeakKey × Leak => keyLe a.1 b.1) (filesK s c cIdx fIdx files) := by
  intro fIdx files
  induction files generalizing fIdx with
  | nil => exact List.Pairwise.nil
  | cons pf rest ih =>
    unfold filesK
    rw [List.pairwise_append]
    refine ⟨?_, ih (fIdx + 1), ?_⟩
    · by_cases hp : pathSuppressed s.allowlist pf.1 = true
      · rw [if_pos hp]
        exact List.Pairwise.nil
      · rw [if_neg hp]
        exact linesK_pairwise s c pf.1 cIdx fIdx 1 (linesOf pf.2)
    · intro a ha b hb
      have ha2 : a.1.1 = cIdx ∧ fIdx ≤ a.1.2.1 := by
        by_cases hp : pathSuppressed s.allowlist pf.1 = true
        · rw [if_pos hp] at ha
          simp at ha
        · rw [if_neg hp] at ha
          obtain ⟨x, y, _⟩ := linesK_key s c pf.1 cIdx fIdx 1 (linesOf pf.2) a ha
          exact ⟨x, by omega⟩
      obtain ⟨hb1, hb2⟩ := filesK_key s c cIdx (fIdx + 1) rest b hb
      have ha3 : a.1.2.1 = fIdx := by
        by_cases hp : pathSuppressed s.allowlist pf.1 = true
        · rw [if_pos hp] at ha
          simp at ha
        · rw [if_neg hp] at ha
          exact (linesK_key s c pf.1 cIdx fIdx 1 (linesOf pf.2) a ha).2.1
      exact keyLe_of_lt2 a.1 b.1 (by rw [ha2.1, hb1]) (by omega)

theorem commitLeaksK_key (s : Scan) (cIdx : Nat) (c : CommitInfo) (kl : LeakKey × Leak)
    (h : kl ∈ commitLeaksK s cIdx c) : kl.1.1 = cIdx := by
  unfold commitLeaksK at h
  by_cases hc : commitSuppressed s.allowlist c.commit.toHex = true
  · rw [if_pos hc] at h
    simp at h
  · rw [if_neg hc] at h
    exact (filesK_key s c cIdx 0 c.files kl h).1

theorem commitLeaksK_pairwise (s : Scan) (cIdx : Nat) (c : CommitInfo) :
    List.Pairwise (fun a b : LeakKey × Leak => keyLe a.1 b.1) (commitLeaksK s cIdx c) := by
  unfold commitLeaksK
  by_cases hc : commitSuppressed s.allowlist c.commit.toHex = true
  · rw [if_pos hc]
    exact List.Pairwise.nil
  · rw [if_neg hc]
    exact filesK_pairwise s c cIdx 0 c.files

theorem commitsK_key (s : Scan) :
    ∀ (cIdx : Nat) (cs : List CommitInfo) (kl : LeakKey × Leak),
      kl ∈ commitsK s cIdx cs → cIdx ≤ kl.1.1 := by
  intro cIdx cs
  induction cs generalizing cIdx with
  | nil =>
    intro kl h
    simp [commitsK] at h
  | cons c rest ih =>
    intro kl h
    unfold commitsK at h
    rcases List.mem_append.mp h with h1 | h2
    · rw [commitLeaksK_key s cIdx c kl h1]
    · have := ih (cIdx + 1) kl h2
      omega

theorem commitsK_pairwise (s : Scan) :
    ∀ (cIdx : Nat) (cs : List CommitInfo),
      List.Pairwise (fun a b : LeakKey × Leak => keyLe a.1 b.1) (commitsK s cIdx cs) := by
  intro cIdx cs
  induction cs generalizing cIdx with
  | nil => exact List.Pairwise.nil
  | cons c rest ih =>
    unfold commitsK
    rw [List.pairwise_append]
    refine ⟨commitLeaksK_pairwise s cIdx c, ih (cIdx + 1), ?_⟩
    intro a ha b hb
    have ha1 := commitLeaksK_key s cIdx c a ha
    have hb1 := commitsK_key s (cIdx + 1) rest b hb
    exact keyLe_of_lt1 a.1 b.1 (by omega)

/-- C5: the scan is a pure function of its configuration and commit range —
two runs produce identical Results — and its `outputs` list is exactly the
keyed scan's leaks, whose position keys are sorted by traversal order, then
file order, then line order, then rule order. -/
theorem scan_deterministic_ordered (s : Scan) (cs : List CommitInfo) :
    runScan s cs = runScan s cs ∧
    (runScan s cs).outputs = (runScanK s cs).map Prod.snd ∧
    List.Pairwise (fun a b : LeakKey × Leak => keyLe a.1 b.1) (runScanK s cs) := by
  refine ⟨rfl, ?_, commitsK_pairwise s 0 cs⟩
  rw [runScan, runScanWith_eq]
  show cs.flatMap (commitLeaks true s) = _
  rw [runScanK, commitsK_map_snd]

/-- Witness for C8 at two concrete identifiers and the concrete leak. -/
theorem commit_id_raw_bytes_witness :
    exLeak ∈ (runScan exScan [exCommit]).outputs ∧
    ((exOid = exOid2 ↔ exOid.val = exOid2.val) ∧
      (Oid.lt exOid exOid2 ↔ List.Lex (fun x y : Nat => x < y) exOid.val exOid2.val) ∧
      exOid.val.length = 20 ∧
      (exOid.val ≠ exOid2.val → Oid.lt exOid exOid2 ∨ Oid.lt exOid2 exOid) ∧
      ∃ c, c ∈ [exCommit] ∧ exLeak.commit = c.commit.toHex) :=
  ⟨by decide, commit_id_raw_bytes exOid exOid2 exScan [exCommit] exLeak (by decide)⟩

end Sensleak
